import Mathlib

/-!
Verification development for the delegator request-orchestration gateway.

The definitions below are shallow embeddings of the Rust sources:
* `src/core/cache/mod.rs`      — `MemoizationCache` and `hash_value`
* `src/core/translate/mod.rs`  — the `Language` transform evaluator `step`
* `src/core/translate/parse.rs`— the transform parser
* `src/core/routes/evaluate.rs`— `do_evaluate`
* `src/core/headers/authorization.rs` — bearer-token extraction

JSON values are modelled with numbers restricted to the integral fragment
(`serde_json::Number` integer cases); floating point is outside the scope of
the claims settled here.  JSON objects are association lists.  Machine-level
details that are external library collaborators (the std `DefaultHasher`, the
HMAC-SHA256 primitive, the HTTP client) are modelled as explicit function
parameters.
-/

namespace Delegator

/-- Model of `serde_json::Value` (integral numbers only). -/
inductive JsonValue where
  | null
  | bool (b : Bool)
  | num (n : Int)
  | str (s : String)
  | arr (elems : List JsonValue)
  | obj (entries : List (String × JsonValue))
deriving Repr

/-- Association-list lookup (first binding wins), the model of map `get`. -/
def alookup {β : Type} (k : String) : List (String × β) → Option β
  | [] => none
  | (k', v) :: rest => if k' = k then some v else alookup k rest

/-- Association-list insert with overwrite, the model of `HashMap::insert`. -/
def ainsert {β : Type} (k : String) (v : β) : List (String × β) → List (String × β)
  | [] => [(k, v)]
  | (k', v') :: rest => if k' = k then (k, v) :: rest else (k', v') :: ainsert k v rest

/-- `Value::get(key)`: field projection on objects, `none` elsewhere. -/
def JsonValue.getKey (v : JsonValue) (key : String) : Option JsonValue :=
  match v with
  | .obj entries => alookup key entries
  | _ => none

/-- The keys of an object (used for the `At` error's `choices`). -/
def JsonValue.objKeys (v : JsonValue) : Option JsonValue :=
  match v with
  | .obj entries => some (.arr (entries.map fun kv => .str kv.1))
  | _ => none

/-! ### Canonical JSON hashing (`src/core/cache/mod.rs`, `hash_value`)

`hash_value` feeds a canonical byte stream of the JSON value into the std
`DefaultHasher` and renders `finish()` in lowercase hex.  The 64-bit hash
itself is an external std collaborator whose `finish` is a pure function of
the written byte sequence, so it is modelled as an explicit parameter
`H : List Nat → Nat` applied to the canonical byte stream. -/

/-- UTF-8 encoding of one character (the bytes of `String::into_bytes`). -/
def utf8Bytes (c : Char) : List Nat :=
  let n := c.toNat
  if n < 0x80 then [n]
  else if n < 0x800 then [0xC0 + n / 64, 0x80 + n % 64]
  else if n < 0x10000 then [0xE0 + n / 4096, 0x80 + (n / 64) % 64, 0x80 + n % 64]
  else [0xF0 + n / 262144, 0x80 + (n / 4096) % 64, 0x80 + (n / 64) % 64, 0x80 + n % 64]

/-- UTF-8 bytes of a string. -/
def strBytes (s : String) : List Nat :=
  (s.data.map utf8Bytes).flatten

/-- Big-endian 8-byte representation (`u64::to_be_bytes`). -/
def beBytes8 (n : Nat) : List Nat :=
  [n / 2 ^ 56 % 256, n / 2 ^ 48 % 256, n / 2 ^ 40 % 256, n / 2 ^ 32 % 256,
   n / 2 ^ 24 % 256, n / 2 ^ 16 % 256, n / 2 ^ 8 % 256, n % 256]

/-- Bytes written for a JSON number: the unsigned form when non-negative,
otherwise the two's-complement `i64::to_be_bytes` form. -/
def numBytes (i : Int) : List Nat :=
  if 0 ≤ i then beBytes8 i.toNat else beBytes8 (2 ^ 64 + i).toNat

/-- Key comparison used when sorting object entries: Rust sorts the key
strings ascending (`keys.sort()`). -/
def keyLe (a b : String × JsonValue) : Bool := decide (a.1 ≤ b.1)

/-- The canonical byte stream written into the hasher by the inner `step`
closure of `hash_value`.  Object entries are sorted by key first; since
`serde_json` maps have unique keys, iterating the key-sorted entries is the
same as sorting the keys and looking each one up. -/
def hashStream : JsonValue → List Nat
  | .null => [0]
  | .bool b => [if b then 1 else 0]
  | .num n => numBytes n
  | .str s => strBytes s
  | .arr elems => (elems.attach.map fun x => hashStream x.1).flatten
  | .obj entries =>
      (((entries.mergeSort keyLe).attach.map
        fun kv => strBytes kv.1.1 ++ hashStream kv.1.2)).flatten
decreasing_by
  · simp only [JsonValue.arr.sizeOf_spec]
    have h := List.sizeOf_lt_of_mem x.2
    omega
  · rcases kv with ⟨⟨a, b⟩, hmem⟩
    have h := List.sizeOf_lt_of_mem (List.mem_mergeSort.mp hmem)
    simp only [Prod.mk.sizeOf_spec] at h
    simp only [JsonValue.obj.sizeOf_spec]
    omega

/-- Lowercase hex rendering of a natural number (`format!("{:x}", _)`). -/
def hexString (n : Nat) : String := ⟨Nat.toDigits 16 n⟩

/-- `hash_value` from `src/core/cache/mod.rs`, with the std `DefaultHasher`
abstracted as the stream function `H`. -/
def hash_value (H : List Nat → Nat) (v : JsonValue) : String :=
  hexString (H (hashStream v))

/-! ### Memoization cache (`src/core/cache/mod.rs`)

`Instant` timestamps are modelled as a `Nat` clock (seconds); `elapsed` is
truncated subtraction `now - cached_at`. -/

/-- `MemoizationCache`: keyed JSON cache with per-entry insert time and TTL. -/
structure MemoizationCache where
  cache : List (String × (Nat × Nat × JsonValue))

def MemoizationCache.empty : MemoizationCache := ⟨[]⟩

/-- `MemoizationCache::get`: present and unexpired (`elapsed > ttl` is
expired). -/
def MemoizationCache.get (c : MemoizationCache) (now : Nat) (key : String) :
    Option JsonValue :=
  (alookup key c.cache).bind fun e =>
    if e.2.1 < now - e.1 then none else some e.2.2

/-- `MemoizationCache::insert`: unconditional overwrite stamped at `now`;
returns the inserted value together with the updated cache. -/
def MemoizationCache.insert (c : MemoizationCache) (now : Nat) (key : String)
    (value : JsonValue) (ttl : Nat) : JsonValue × MemoizationCache :=
  (value, ⟨ainsert key (now, ttl, value) c.cache⟩)

/-! ### Transform language and evaluator (`src/core/translate/mod.rs`) -/

/-- `config::events::EventTopic`. -/
structure EventTopic where
  queue_url : String
deriving Repr

/-- `events::EventType`. -/
inductive EventType where
  | Search
  | SearchResult
deriving Repr

/-- `translate::OwnerId`. -/
abbrev OwnerId := String

/-- `translate::ActionContextId` (a UUID, modelled as its string form). -/
abbrev ActionContextId := String

/-- `events::PageContext` (an arbitrary JSON value). -/
abbrev PageContext := JsonValue

/-- The `Language` transform AST ("a poor man's jq"). -/
inductive Language where
  | At (key : String)
  | Array (next : Language)
  | Object (pairs : List (String × Language))
  | Splat (each : List Language)
  | Set (into : String)
  | Get (key : String)
  | Const (value : JsonValue)
  | Identity
  | Map (first second : Language)
  | Length
  | Join (sep : String)
  | Default (prog : Language)
  | Flatten
  | EmitEvent (owner_id : Option OwnerId) (topic : EventTopic) (et : EventType)
      (action_context_id : ActionContextId) (page_context : PageContext)
deriving Repr

/-- `StepError`: breadcrumb history plus optional alternative keys. -/
structure StepError where
  history : List String
  choices : Option JsonValue
deriving Repr

def StepError.new (root : String) : StepError := ⟨[root], none⟩

def StepError.prepend_history (se : StepError) (before : String) : StepError :=
  ⟨before :: se.history, se.choices⟩

/-- Outcome of running embedded code: a value, a recoverable error, or a Rust
panic (an abort that is not a `Result` value). -/
inductive Res (ε : Type) (α : Type) where
  | ok (value : α)
  | err (e : ε)
  | panic (msg : String)
deriving Repr

/-- `TranslateContext`: an optional event client (an external SQS
collaborator, modelled as a unit). -/
structure TranslateContext where
  client : Option Unit

def TranslateContext.noop : TranslateContext := ⟨none⟩

/-- The scratchpad `State` (`HashMap<String, Arc<Value>>` behind a mutex,
modelled as an association list threaded through evaluation; the mutex can
only be poisoned by a cross-thread panic, so locking is modelled as always
succeeding). -/
abbrev Store := List (String × JsonValue)

def make_state : Store := []

/-- Strings collected by `Join`: non-string elements are skipped. -/
def joinStrings (xs : List JsonValue) (sep : String) : String :=
  String.intercalate sep (xs.filterMap fun x =>
    match x with
    | .str s => some s
    | _ => none)

/-- `Flatten`'s loop: concatenates child arrays, `none` at the first
non-array child (where the Rust code panics). -/
def flattenAll : List JsonValue → Option (List JsonValue)
  | [] => some []
  | .arr ys :: rest => (flattenAll rest).map fun out => ys ++ out
  | _ :: _ => none

mutual

/-- `translate::step`: the transform evaluator.  The scratchpad is threaded
explicitly; the `Res.panic` constructor records the `panic!` aborts present
in the source (`Flatten` on a bad shape, `Splat([])`'s `last().unwrap()`). -/
def step (ctx : TranslateContext) (prog : Language) (current : JsonValue)
    (state : Store) : Res StepError JsonValue × Store :=
  match prog with
  | .At key =>
    match current.getKey key with
    | some v => (.ok v, state)
    | none => (.err ⟨[key], current.objKeys⟩, state)
  | .Array next =>
    match current with
    | .arr xs =>
      match stepArr ctx next xs 0 state with
      | (.ok vs, st) => (.ok (.arr vs), st)
      | (.err e, st) => (.err e, st)
      | (.panic m, st) => (.panic m, st)
    | _ => (.err (StepError.new "<Not an array>"), state)
  | .Object pairs =>
    match stepObj ctx pairs current state with
    | (.ok kvs, st) => (.ok (.obj kvs), st)
    | (.err e, st) => (.err e, st)
    | (.panic m, st) => (.panic m, st)
  | .Splat each =>
    match stepSplat ctx each current state with
    | (.ok vs, st) =>
      match vs.getLast? with
      | some v => (.ok v, st)
      | none => (.panic "called Option::unwrap() on a None value", st)
    | (.err e, st) => (.err e, st)
    | (.panic m, st) => (.panic m, st)
  | .Set into => (.ok current, ainsert into current state)
  | .Get key =>
    match alookup key state with
    | some v => (.ok v, state)
    | none => (.err (StepError.new ("Get(" ++ key ++ ")")), state)
  | .Const value => (.ok value, state)
  | .Identity => (.ok current, state)
  | .Map first second =>
    match step ctx first current state with
    | (.ok intermediate, st) => step ctx second intermediate st
    | (.err e, st) => (.err e, st)
    | (.panic m, st) => (.panic m, st)
  | .Length =>
    match current with
    | .arr xs => (.ok (.num xs.length), state)
    | .obj kvs => (.ok (.num kvs.length), state)
    | _ => (.ok .null, state)
  | .Join sep =>
    match current with
    | .arr xs => (.ok (.str (joinStrings xs sep)), state)
    | _ => (.err ⟨[], none⟩, state)
  | .Default prog =>
    match current with
    | .null => step ctx prog .null state
    | other => (.ok other, state)
  | .Flatten =>
    match current with
    | .arr xs =>
      match flattenAll xs with
      | some out => (.ok (.arr out), state)
      | none => (.panic "Child was not an array!", state)
    | _ => (.panic "Child was not an array!", state)
  | .EmitEvent _ _ _ _ _ => (.ok current, state)
termination_by (sizeOf prog, 0)

/-- The `Array` element loop: evaluates `next` on each element in order,
prepending `[i]` to the history of the first failure. -/
def stepArr (ctx : TranslateContext) (next : Language) (xs : List JsonValue)
    (i : Nat) (state : Store) : Res StepError (List JsonValue) × Store :=
  match xs with
  | [] => (.ok [], state)
  | x :: rest =>
    match step ctx next x state with
    | (.ok v, st) =>
      match stepArr ctx next rest (i + 1) st with
      | (.ok vs, st') => (.ok (v :: vs), st')
      | (.err e, st') => (.err e, st')
      | (.panic m, st') => (.panic m, st')
    | (.err e, st) =>
      (.err (StepError.prepend_history e ("[" ++ toString i ++ "]")), st)
    | (.panic m, st) => (.panic m, st)
termination_by (sizeOf next, xs.length + 1)

/-- The `Object` pair loop: evaluates each sub-expression against the same
input, collecting the results in declared order. -/
def stepObj (ctx : TranslateContext) (pairs : List (String × Language))
    (current : JsonValue) (state : Store) :
    Res StepError (List (String × JsonValue)) × Store :=
  match pairs with
  | [] => (.ok [], state)
  | (k, sub) :: rest =>
    match step ctx sub current state with
    | (.ok v, st) =>
      match stepObj ctx rest current st with
      | (.ok kvs, st') => (.ok ((k, v) :: kvs), st')
      | (.err e, st') => (.err e, st')
      | (.panic m, st') => (.panic m, st')
    | (.err e, st) => (.err e, st)
    | (.panic m, st) => (.panic m, st)
termination_by (sizeOf pairs, 0)

/-- The `Splat` loop: evaluates each sub-expression against the same input,
in order, collecting every result. -/
def stepSplat (ctx : TranslateContext) (each : List Language)
    (current : JsonValue) (state : Store) :
    Res StepError (List JsonValue) × Store :=
  match each with
  | [] => (.ok [], state)
  | sub :: rest =>
    match step ctx sub current state with
    | (.ok v, st) =>
      match stepSplat ctx rest current st with
      | (.ok vs, st') => (.ok (v :: vs), st')
      | (.err e, st') => (.err e, st')
      | (.panic m, st') => (.panic m, st')
    | (.err e, st) => (.err e, st)
    | (.panic m, st) => (.panic m, st)
termination_by (sizeOf each, 0)

end

/-! ### Transform parser (`src/core/translate/parse.rs`)

The nom parsers are modelled over `List Char`, with results `(remaining,
value)` like nom's `IResult`.  The mutually recursive thunk parsers consume
at least one character per recursion level, so the top-level wrapper supplies
`length + 1` fuel. -/

/-- nom `space0` (spaces and tabs). -/
def isSpaceTab (c : Char) : Bool := c = ' ' || c = '\t'

def pSpace0 (input : List Char) : List Char := input.dropWhile isSpaceTab

/-- Characters allowed after the first identifier character. -/
def isIdentChar (c : Char) : Bool := c.isAlphanum || c = '_'

/-- `identifier`: `[A-Za-z_][A-Za-z0-9_]*` (as `recognize(pair(alt((alpha1,
tag("_"))), many0_count(alt((alphanumeric1, tag("_"))))))`). -/
def pIdentifier (input : List Char) : Option (List Char × List Char) :=
  match input with
  | [] => none
  | c :: _ =>
    if c.isAlpha || c = '_' then
      some (input.dropWhile isIdentChar, input.takeWhile isIdentChar)
    else none

/-- nom `tag`. -/
def pTag (t : List Char) (input : List Char) : Option (List Char) :=
  if t.isPrefixOf input then some (input.drop t.length) else none

/-- nom `char`. -/
def pChar (c : Char) (input : List Char) : Option (List Char) :=
  match input with
  | x :: rest => if x = c then some rest else none
  | [] => none

/-- A character the `escaped` body accepts unescaped. -/
def notEsc (c : Char) : Bool := !(c = '\\' || c = '"')

/-- nom `escaped(is_not("\\\""), '\\', one_of("\"\\"))`: alternating runs of
plain characters and escape pairs; stops (successfully) at the first
character that fits neither. -/
def pEscaped (input : List Char) : List Char × List Char :=
  match input with
  | [] => ([], [])
  | c :: rest =>
    if c = '\\' then
      match rest with
      | e :: rest' =>
        if e = '"' || e = '\\' then
          let r := pEscaped rest'
          (r.1, c :: e :: r.2)
        else (c :: rest, [])
      | [] => (c :: rest, [])
    else if _hq : c = '"' then (c :: rest, [])
    else
      let r := pEscaped ((c :: rest).dropWhile notEsc)
      (r.1, (c :: rest).takeWhile notEsc ++ r.2)
termination_by input.length
decreasing_by
  · simp only [List.length_cons]
    omega
  · have key : ∀ (a : Char) (t : List Char), notEsc a = true →
        ((a :: t).dropWhile notEsc).length < (a :: t).length := by
      intro a t ha
      rw [List.dropWhile_cons]
      simp only [ha, if_true]
      have hle := (List.dropWhile_sublist (l := t) notEsc).length_le
      simp only [List.length_cons]
      omega
    apply key
    simp_all [notEsc]

/-- `quoted`: a double-quoted string with `\` escapes. -/
def pQuoted (input : List Char) : Option (List Char × List Char) :=
  match pChar '"' input with
  | some rest =>
    let r := pEscaped rest
    match pChar '"' r.1 with
    | some rem => some (rem, r.2)
    | none => none
  | none => none

/-- `parse_get`: `get("ident")` with `space0` before and after the opening
tag. -/
def pGet (input : List Char) : Option (List Char × Language) :=
  match pTag ("get(\"").data (pSpace0 input) with
  | none => none
  | some rest =>
    match pIdentifier (pSpace0 rest) with
    | none => none
    | some (rem, key) =>
      match pTag ("\")").data rem with
      | some rem' => some (rem', .Get ⟨key⟩)
      | none => none

/-- `parse_set`: `set("ident")`. -/
def pSet (input : List Char) : Option (List Char × Language) :=
  match pTag ("set(\"").data (pSpace0 input) with
  | none => none
  | some rest =>
    match pIdentifier (pSpace0 rest) with
    | none => none
    | some (rem, key) =>
      match pTag ("\")").data rem with
      | some rem' => some (rem', .Set ⟨key⟩)
      | none => none

/-- `parse_flatten`: the literal `flatten`. -/
def pFlatten (input : List Char) : Option (List Char × Language) :=
  (pTag ("flatten").data input).map fun rest => (rest, .Flatten)

/-- `parse_identity`: a bare `.`. -/
def pIdentity (input : List Char) : Option (List Char × Language) :=
  (pChar '.' input).map fun rest => (rest, .Identity)


mutual

/-- `parse_thunk`: the ordered `or_else` chain of alternatives. -/
def pThunk : Nat → List Char → Option (List Char × Language)
  | 0, _ => none
  | fuel + 1, input =>
    match pAt fuel input with
    | some r => some r
    | none =>
      match pMap fuel input with
      | some r => some r
      | none =>
        match pObject fuel input with
        | some r => some r
        | none =>
          match pGet input with
          | some r => some r
          | none =>
            match pSet input with
            | some r => some r
            | none =>
              match pDefault fuel input with
              | some r => some r
              | none =>
                match pFlatten input with
                | some r => some r
                | none => pIdentity input

/-- `parse_at`: `'.' ident`, optionally piped via `'|'` into another thunk
(`Map(At(k), rest)`); the pipe attempt backtracks wholly on failure. -/
def pAt : Nat → List Char → Option (List Char × Language)
  | 0, _ => none
  | fuel + 1, input =>
    match pChar '.' input with
    | none => none
    | some rest =>
      match pIdentifier rest with
      | none => none
      | some (rest₂, key) =>
        match
          (match pChar '|' (pSpace0 rest₂) with
           | some rest₃ => pThunk fuel (pSpace0 rest₃)
           | none => none) with
        | some (rem, piped) => some (rem, .Map (.At ⟨key⟩) piped)
        | none => some (rest₂, .At ⟨key⟩)

/-- `parse_map`: `map( thunk )` becomes `Array(thunk)`. -/
def pMap : Nat → List Char → Option (List Char × Language)
  | 0, _ => none
  | fuel + 1, input =>
    match pTag ("map(").data input with
    | none => none
    | some rest =>
      match pThunk fuel (pSpace0 rest) with
      | none => none
      | some (rem, sub) =>
        match pChar ')' (pSpace0 rem) with
        | some rem' => some (rem', .Array sub)
        | none => none

/-- One `entry`: `string ':' thunk`. -/
def pEntry : Nat → List Char → Option (List Char × (String × Language))
  | 0, _ => none
  | fuel + 1, input =>
    match pQuoted input with
    | none => none
    | some (rest, key) =>
      match pChar ':' (pSpace0 rest) with
      | none => none
      | some rest₂ =>
        match pThunk fuel (pSpace0 rest₂) with
        | none => none
        | some (rem, sub) => some (rem, (⟨key⟩, sub))

/-- `separated_list0`'s tail loop for object entries: a separator followed by
an entry; backtracks to before the separator when the entry fails. -/
def pEntriesRest : Nat → List Char → List Char × List (String × Language)
  | 0, input => (input, [])
  | fuel + 1, input =>
    match pChar ',' (pSpace0 input) with
    | none => (input, [])
    | some rest =>
      match pEntry fuel (pSpace0 rest) with
      | none => (input, [])
      | some (rem, e) =>
        let r := pEntriesRest fuel rem
        (r.1, e :: r.2)

/-- `separated_list0` over entries (possibly empty). -/
def pEntries : Nat → List Char → List Char × List (String × Language)
  | 0, input => (input, [])
  | fuel + 1, input =>
    match pEntry fuel input with
    | none => (input, [])
    | some (rem, e) =>
      let r := pEntriesRest fuel rem
      (r.1, e :: r.2)

/-- `parse_object`: `{ entry (',' entry)* }` with surrounding `space0`. -/
def pObject : Nat → List Char → Option (List Char × Language)
  | 0, _ => none
  | fuel + 1, input =>
    match pChar '{' (pSpace0 input) with
    | none => none
    | some rest =>
      let r := pEntries fuel (pSpace0 rest)
      match pChar '}' (pSpace0 r.1) with
      | some rem => some (pSpace0 rem, .Object r.2)
      | none => none

/-- `parse_default`: `default( lang )`. -/
def pDefault : Nat → List Char → Option (List Char × Language)
  | 0, _ => none
  | fuel + 1, input =>
    match pTag ("default(").data input with
    | none => none
    | some rest =>
      match pLanguage fuel rest with
      | none => none
      | some (rem, sub) =>
        match pChar ')' rem with
        | some rem' => some (rem', .Default sub)
        | none => none

/-- `separated_list1`'s tail loop for thunks separated by `,`. -/
def pThunkRest : Nat → List Char → List Char × List Language
  | 0, input => (input, [])
  | fuel + 1, input =>
    match pTag (",").data (pSpace0 input) with
    | none => (input, [])
    | some rest =>
      match pThunk fuel (pSpace0 rest) with
      | none => (input, [])
      | some (rem, l) =>
        let r := pThunkRest fuel rem
        (r.1, l :: r.2)

/-- `parse_language`: one thunk, or a comma-separated list collected into
`Splat`. -/
def pLanguage : Nat → List Char → Option (List Char × Language)
  | 0, _ => none
  | fuel + 1, input =>
    match pThunk fuel input with
    | none => none
    | some (rem, first) =>
      let r := pThunkRest fuel rem
      match r.2 with
      | [] => some (r.1, first)
      | rest => some (r.1, .Splat (first :: rest))

end

/-- Top-level `parse_language` on a string, with sufficient fuel. -/
def parse_language (s : String) : Option (String × Language) :=
  (pLanguage (s.length + 1) s.data).map fun r => (⟨r.1⟩, r.2)

/-! ### Evaluator core (`src/core/routes/evaluate.rs`) -/

/-- `config::MethodDefinition` (the HTTP method is modelled by its name). -/
structure MethodDefinition where
  path : String
  method : String
deriving Repr

/-- `config::ServiceDefinition` (REST transport). -/
inductive ServiceDefinition where
  | Rest (scheme : String) (authority : String)
      (methods : List (String × MethodDefinition))
deriving Repr

/-- `config::Services`. -/
abbrev Services := List (String × ServiceDefinition)

/-- A built URI (`Uri::builder()` with typed scheme/authority/path parts
always succeeds, so building is modelled as total and `UriBuilderError` is
unreachable here). -/
structure Uri where
  scheme : String
  authority : String
  path_and_query : String
deriving Repr

/-- `EvaluateError`; payloads of external error types are carried as
strings. -/
inductive EvaluateError where
  | ClientError (msg : String)
  | InvalidJsonError (msg : String)
  | InvalidPayloadError (msg : String)
  | UnknownStep (num : Nat)
  | InvalidStructure (se : StepError)
  | InvalidTransition (steps : List Nat) (stepIdx : Nat)
  | NetworkError (context : JsonValue)
  | NoStepsSpecified
  | UnknownMethod (service_name method_name : String)
  | UnknownService (service_name : String)
  | UriBuilderError (msg : String)
  | Utf8Error (msg : String)
deriving Repr

/-- The `JsonClient` capability `issue_request(method, uri, value, headers)`:
an external HTTP collaborator modelled as a pure function. -/
abbrev JsonClient :=
  String → Uri → JsonValue → List (String × String) → Except EvaluateError JsonValue

/-- `TestJsonClient`: returns the supplied body verbatim. -/
def TestJsonClient : JsonClient := fun _ _ payload _ => .ok payload

/-- `JsonCryptogramStep`. -/
structure JsonCryptogramStep where
  service : Option String
  method : Option String
  payload : Option JsonValue
  preflight : Option Language
  postflight : Option Language
  memoizationPrefix : Option String
  headers : Option (List (String × String))
deriving Repr

/-- `JsonCryptogram`. -/
structure JsonCryptogram where
  steps : List JsonCryptogramStep
deriving Repr

/-- The non-payload fields of a step (used to state frame properties). -/
def stepFrame (s : JsonCryptogramStep) :
    Option String × Option String × Option Language × Option Language ×
      Option String × Option (List (String × String)) :=
  (s.service, s.method, s.preflight, s.postflight, s.memoizationPrefix,
    s.headers)

/-- State threaded through `do_evaluate`: the shared memoization cache, the
per-evaluation scratchpad, and the trace of `issue_request` calls made. -/
structure RunState where
  cache : MemoizationCache
  store : Store
  calls : List (String × Uri × JsonValue × List (String × String))

/-- `if let Some(pf) = flight { translate::step(...) } else { value }`. -/
def applyFlight (ctx : TranslateContext) (flight : Option Language)
    (value : JsonValue) (st : Store) : Res StepError JsonValue × Store :=
  match flight with
  | some pf => step ctx pf value st
  | none => (.ok value, st)

/-- The body of one iteration of `do_evaluate`'s `while` loop: computes the
step's `new_payload` (or fails), updating cache, scratchpad and the call
trace.  `H` abstracts the std `DefaultHasher`; `now` is the `Instant`
clock. -/
def processStep (ctx : TranslateContext) (H : List Nat → Nat) (inv : JsonClient)
    (services : Services) (now : Nat) (s : JsonCryptogramStep) (rs : RunState) :
    Res EvaluateError JsonValue × RunState :=
  let payload := s.payload.getD .null
  match applyFlight ctx s.preflight payload rs.store with
  | (.err e, st) => (.err (.InvalidStructure e), { rs with store := st })
  | (.panic m, st) => (.panic m, { rs with store := st })
  | (.ok outgoing_payload, st) =>
    let rs₁ : RunState := { rs with store := st }
    let memo_key := s.memoizationPrefix.map fun pfx =>
      pfx ++ hash_value H outgoing_payload
    let maybe_cache :=
      match memo_key with
      | some key => rs₁.cache.get now key
      | none => none
    match maybe_cache with
    | some cached_value => (.ok cached_value, rs₁)
    | none =>
      match s.service, s.method with
      | some service_name, some method_name =>
        match alookup service_name services with
        | none => (.err (.UnknownService service_name), rs₁)
        | some (.Rest scheme authority methods) =>
          match alookup method_name methods with
          | none => (.err (.UnknownMethod service_name method_name), rs₁)
          | some meth =>
            let uri : Uri := ⟨scheme, authority, meth.path⟩
            let headers := s.headers.getD []
            let rs₂ : RunState :=
              { rs₁ with calls :=
                  rs₁.calls ++ [(meth.method, uri, outgoing_payload, headers)] }
            match inv meth.method uri outgoing_payload headers with
            | .error e => (.err e, rs₂)
            | .ok result =>
              match applyFlight ctx s.postflight result rs₂.store with
              | (.err e, st') => (.err (.InvalidStructure e), { rs₂ with store := st' })
              | (.panic m, st') => (.panic m, { rs₂ with store := st' })
              | (.ok new_payload, st') =>
                let rs₃ : RunState := { rs₂ with store := st' }
                match memo_key with
                | some key =>
                  let r := rs₃.cache.insert now key new_payload 600
                  (.ok r.1, { rs₃ with cache := r.2 })
                | none => (.ok new_payload, rs₃)
      | _, _ =>
        match s.postflight with
        | some pf =>
          match step ctx pf outgoing_payload rs₁.store with
          | (.ok v, st') => (.ok v, { rs₁ with store := st' })
          | (.err e, st') => (.err (.InvalidStructure e), { rs₁ with store := st' })
          | (.panic m, st') => (.panic m, { rs₁ with store := st' })
        | none => (.ok outgoing_payload, rs₁)

/-- The `while step < cryptogram.steps.len()` loop of `do_evaluate`: each
iteration overwrites the next step's payload with the produced value (the
in-place mutation of `cryptogram.steps` is modelled by rebuilding the list);
the last iteration produces the final value. -/
def runSteps (ctx : TranslateContext) (H : List Nat → Nat) (inv : JsonClient)
    (services : Services) (now : Nat) :
    List JsonCryptogramStep → RunState →
      Res EvaluateError (Option JsonValue × List JsonCryptogramStep) × RunState
  | [], rs => (.ok (none, []), rs)
  | s :: rest, rs =>
    match processStep ctx H inv services now s rs with
    | (.ok new_payload, rs') =>
      match rest with
      | [] => (.ok (some new_payload, [s]), rs')
      | t :: ts =>
        match runSteps ctx H inv services now
            ({ t with payload := some new_payload } :: ts) rs' with
        | (.ok (fin, steps'), rs'') => (.ok (fin, s :: steps'), rs'')
        | (.err e, rs'') => (.err e, rs'')
        | (.panic m, rs'') => (.panic m, rs'')
    | (.err e, rs') => (.err e, rs')
    | (.panic m, rs') => (.panic m, rs')
termination_by steps _ => steps.length

/-- `do_evaluate`: runs the loop and returns the final value together with
the updated cryptogram; an absent final value is `NoStepsSpecified`. -/
def do_evaluate (ctx : TranslateContext) (H : List Nat → Nat) (inv : JsonClient)
    (services : Services) (now : Nat) (cryptogram : JsonCryptogram)
    (rs : RunState) :
    Res EvaluateError (JsonValue × JsonCryptogram) × RunState :=
  match runSteps ctx H inv services now cryptogram.steps rs with
  | (.ok (some v, steps'), rs') => (.ok (v, ⟨steps'⟩), rs')
  | (.ok (none, _), rs') => (.err .NoStepsSpecified, rs')
  | (.err e, rs') => (.err e, rs')
  | (.panic m, rs') => (.panic m, rs')

/-! ### Bearer-token extraction (`src/core/headers/authorization.rs`)

Header and token strings are modelled as `List Char`.  The HMAC-SHA256 /
Base64-no-pad pipeline is an external collaborator, modelled as the function
parameter `mac : secret → message → encoded signature`; the
`HTTP_COOKIE_SECRET` environment variable is the `secret : Option (List
Char)` parameter. -/

/-- `BearerFields`. -/
structure BearerFields where
  owner_id : List Char
  raw_value : List Char
deriving Repr

/-- `Authorization`. -/
inductive Authorization where
  | Bearer (fields : BearerFields)
  | Empty
deriving Repr

/-- Split at the last occurrence of `c` (the two pieces of
`rsplitn(2, c)`): `some (before, after)`, or `none` when `c` is absent. -/
def splitLast : List Char → Char → Option (List Char × List Char)
  | [], _ => none
  | x :: xs, c =>
    match splitLast xs c with
    | some r => some (x :: r.1, r.2)
    | none => if x = c then some ([], xs) else none

/-- Split at the first occurrence of `c` (the two pieces of
`splitn(2, c)`). -/
def splitFirst : List Char → Char → Option (List Char × List Char)
  | [], _ => none
  | x :: xs, c =>
    if x = c then some ([], xs)
    else (splitFirst xs c).map fun r => (x :: r.1, r.2)

/-- `hmac_verify`: requires the secret, splits `token` as
`owner_id ++ "." ++ signature` at the last dot, and accepts when the
computed signature matches. -/
def hmac_verify (mac : List Char → List Char → List Char)
    (secret : Option (List Char)) (token : List Char) : Option (List Char) :=
  match secret with
  | none => none
  | some sec =>
    match splitLast token '.' with
    | some r => if mac sec r.1 = r.2 then some r.1 else none
    | none => none

/-- `Authorization::from_request` on the `Authorization` header value:
only `Bearer` tokens carrying the legacy `"s:"` sentinel are verified
(after stripping the sentinel); everything else is `Empty`. -/
def from_request (mac : List Char → List Char → List Char)
    (secret : Option (List Char)) (header : Option (List Char)) :
    Authorization :=
  match header with
  | none => .Empty
  | some value =>
    match splitFirst value ' ' with
    | some r =>
      if r.1 = ("Bearer").data then
        if (("s:").data).isPrefixOf r.2 then
          match hmac_verify mac secret (r.2.drop 2) with
          | some oid => .Bearer ⟨oid, r.2⟩
          | none => .Empty
        else .Empty
      else .Empty
    | none => .Empty

/-! ## Supporting lemmas -/

/-- Two key-sorted entry lists that are permutations of each other and have
duplicate-free keys are equal. -/
theorem sorted_perm_eq_of_nodup_keys :
    ∀ l₁ l₂ : List (String × JsonValue), l₁.Perm l₂ →
      l₁.Pairwise (fun a b => keyLe a b) →
      l₂.Pairwise (fun a b => keyLe a b) →
      (l₁.map Prod.fst).Nodup → l₁ = l₂
  | [], _, hp, _, _, _ => hp.nil_eq
  | a :: t, l₂, hp, hs₁, hs₂, hnd => by
    cases l₂ with
    | nil =>
      have := hp.length_eq
      simp at this
    | cons b t₂ =>
      have hab : a = b := by
        have haIn : a ∈ b :: t₂ := hp.mem_iff.mp (List.mem_cons_self a t)
        rcases List.mem_cons.mp haIn with h | h
        · exact h
        · have hbIn : b ∈ a :: t := hp.mem_iff.mpr (List.mem_cons_self b t₂)
          rcases List.mem_cons.mp hbIn with h' | h'
          · exact h'.symm
          · exfalso
            have h₁ : keyLe a b := (List.pairwise_cons.mp hs₁).1 b h'
            have h₂ : keyLe b a := (List.pairwise_cons.mp hs₂).1 a h
            have hk : a.1 = b.1 := le_antisymm
              (by simpa [keyLe] using h₁) (by simpa [keyLe] using h₂)
            have hmem : a.1 ∈ t.map Prod.fst :=
              List.mem_map.mpr ⟨b, h', hk.symm⟩
            exact (List.nodup_cons.mp (by simpa using hnd)).1 hmem
      subst hab
      have ht := sorted_perm_eq_of_nodup_keys t t₂ hp.cons_inv
        (List.pairwise_cons.mp hs₁).2 (List.pairwise_cons.mp hs₂).2
        (List.nodup_cons.mp (by simpa using hnd)).2
      rw [ht]

/-- Sorting by key sends permuted duplicate-free-key entry lists to the same
list. -/
theorem mergeSort_eq_of_perm_nodup (l₁ l₂ : List (String × JsonValue))
    (hperm : l₁.Perm l₂) (hnd : (l₁.map Prod.fst).Nodup) :
    l₁.mergeSort keyLe = l₂.mergeSort keyLe := by
  have t1 := List.mergeSort_perm l₁ keyLe
  have t2 := List.mergeSort_perm l₂ keyLe
  have htrans : ∀ a b c : String × JsonValue,
      keyLe a b → keyLe b c → keyLe a c := by
    intro a b c hab hbc
    simp only [keyLe, decide_eq_true_eq] at *
    exact le_trans hab hbc
  have htotal : ∀ a b : String × JsonValue, keyLe a b || keyLe b a := by
    intro a b
    simp only [keyLe, Bool.or_eq_true, decide_eq_true_eq]
    exact le_total a.1 b.1
  apply sorted_perm_eq_of_nodup_keys
  · exact t1.trans (hperm.trans t2.symm)
  · exact List.sorted_mergeSort htrans htotal l₁
  · exact List.sorted_mergeSort htrans htotal l₂
  · exact ((t1.map Prod.fst).nodup_iff).mpr hnd

/-- The object case of `hashStream`, rephrased without `attach`. -/
theorem hashStream_obj (entries : List (String × JsonValue)) :
    hashStream (.obj entries) =
      ((entries.mergeSort keyLe).map fun kv =>
        strBytes kv.1 ++ hashStream kv.2).flatten := by
  rw [hashStream]
  congr 1
  exact List.attach_map_val (entries.mergeSort keyLe)
    (fun kv => strBytes kv.1 ++ hashStream kv.2)

/-- `flattenAll` on a list of arrays concatenates them. -/
theorem flattenAll_map_arr (yss : List (List JsonValue)) :
    flattenAll (yss.map .arr) = some yss.flatten := by
  induction yss with
  | nil => rfl
  | cons ys rest ih => simp [flattenAll, ih]

/-- `flattenAll` succeeds only on lists of arrays. -/
theorem flattenAll_eq_some (xs : List JsonValue) (out : List JsonValue)
    (h : flattenAll xs = some out) :
    ∃ yss : List (List JsonValue), xs = yss.map .arr ∧ out = yss.flatten := by
  induction xs generalizing out with
  | nil =>
    refine ⟨[], rfl, ?_⟩
    simp [flattenAll] at h
    simp [h.symm]
  | cons x rest ih =>
    cases x with
    | arr ys =>
      simp only [flattenAll, Option.map_eq_some'] at h
      obtain ⟨out', hout', rfl⟩ := h
      obtain ⟨yss, rfl, rfl⟩ := ih out' hout'
      exact ⟨ys :: yss, rfl, by simp⟩
    | null => simp [flattenAll] at h
    | bool b => simp [flattenAll] at h
    | num n => simp [flattenAll] at h
    | str s => simp [flattenAll] at h
    | obj kvs => simp [flattenAll] at h

/-- `stepSplat` returns one value per sub-expression. -/
theorem stepSplat_length (ctx : TranslateContext) :
    ∀ (each : List Language) (current : JsonValue) (st : Store)
      (vs : List JsonValue) (st' : Store),
      stepSplat ctx each current st = (.ok vs, st') → vs.length = each.length
  | [], _, _, vs, st', h => by
    simp only [stepSplat] at h
    cases h
    rfl
  | sub :: rest, current, st, vs, st', h => by
    rw [stepSplat] at h
    split at h
    · split at h
      · cases h
        exact congrArg Nat.succ (stepSplat_length ctx rest current _ _ _ (by assumption))
      · simp at h
      · simp at h
    · simp at h
    · simp at h

/-! ## Claim theorems -/

/-- C2: for any two JSON objects with identical key/value content but
different insertion order (entry lists that are permutations of each other,
keys duplicate-free as in a `serde_json` map), `hash_value` produces the
same hash string, whatever 64-bit hasher `H` underlies it — object keys are
sorted before hashing. -/
theorem c2_hash_value_order_independent (H : List Nat → Nat)
    (kvs₁ kvs₂ : List (String × JsonValue))
    (hperm : kvs₁.Perm kvs₂) (hnd : (kvs₁.map Prod.fst).Nodup) :
    hash_value H (.obj kvs₁) = hash_value H (.obj kvs₂) := by
  unfold hash_value
  rw [hashStream_obj, hashStream_obj,
    mergeSort_eq_of_perm_nodup kvs₁ kvs₂ hperm hnd]

/-- Witness for C2 at the spec's S6 payloads `{"a":1,"b":2}` and
`{"b":2,"a":1}`. -/
theorem c2_hash_value_order_independent_witness :
    ([("a", JsonValue.num 1), ("b", JsonValue.num 2)]).Perm
        [("b", JsonValue.num 2), ("a", JsonValue.num 1)] ∧
      (([("a", JsonValue.num 1), ("b", JsonValue.num 2)]).map Prod.fst).Nodup ∧
      hash_value (fun l => l.sum)
          (.obj [("a", .num 1), ("b", .num 2)]) =
        hash_value (fun l => l.sum)
          (.obj [("b", .num 2), ("a", .num 1)]) :=
  ⟨List.Perm.swap _ _ _, by decide,
    c2_hash_value_order_independent (fun l => l.sum) _ _
      (List.Perm.swap _ _ _) (by decide)⟩

/-- C3: `MemoizationCache.get` returns the stored value iff an entry for the
key is present and the elapsed time since insertion is at most its TTL. -/
theorem c3_cache_get_iff (c : MemoizationCache) (now : Nat) (key : String)
    (v : JsonValue) :
    c.get now key = some v ↔
      ∃ cached_at ttl, alookup key c.cache = some (cached_at, ttl, v) ∧
        now - cached_at ≤ ttl := by
  constructor
  · intro hsome
    unfold MemoizationCache.get at hsome
    cases h : alookup key c.cache with
    | none => rw [h] at hsome; simp at hsome
    | some e =>
      obtain ⟨ca, ttl, w⟩ := e
      rw [h] at hsome
      by_cases hlt : ttl < now - ca
      · simp [hlt] at hsome
      · simp [hlt] at hsome
        subst hsome
        exact ⟨ca, ttl, rfl, by omega⟩
  · rintro ⟨ca, ttl, hl, hle⟩
    unfold MemoizationCache.get
    rw [hl]
    show (if ttl < now - ca then (none : Option JsonValue) else some v) = some v
    rw [if_neg (by omega)]

/-- C5: evaluating `Array(At("foo"))` against `[{"bar":"baz"}]` yields a
`StepError` whose history is exactly `["[0]", "foo"]` (the array index is
prepended before the missing key), for any scratchpad. -/
theorem c5_array_at_breadcrumb (ctx : TranslateContext) (sp : Store) :
    step ctx (.Array (.At "foo")) (.arr [.obj [("bar", .str "baz")]]) sp =
      (.err ⟨["[0]", "foo"], some (.arr [.str "bar"])⟩, sp) := by
  simp [step, stepArr, JsonValue.getKey, JsonValue.objKeys, alookup,
    StepError.prepend_history]
  rfl

/-- C6 (amended): `Flatten` concatenates an array whose elements are all
arrays; on every other shape it panics (`panic!("Child was not an
array!")`) instead of returning a `StepError` result. -/
theorem c6_flatten_amended (ctx : TranslateContext) (sp : Store)
    (v : JsonValue) :
    (∀ yss : List (List JsonValue), v = .arr (yss.map .arr) →
      step ctx .Flatten v sp = (.ok (.arr yss.flatten), sp)) ∧
    ((¬ ∃ yss : List (List JsonValue), v = .arr (yss.map .arr)) →
      step ctx .Flatten v sp = (.panic "Child was not an array!", sp)) := by
  constructor
  · rintro yss rfl
    simp [step, flattenAll_map_arr]
  · intro hne
    cases v with
    | arr xs =>
      cases hfa : flattenAll xs with
      | some out =>
        exfalso
        obtain ⟨yss, rfl, _⟩ := flattenAll_eq_some xs out hfa
        exact hne ⟨yss, rfl⟩
      | none => simp [step, hfa]
    | null => simp [step]
    | bool b => simp [step]
    | num n => simp [step]
    | str s => simp [step]
    | obj kvs => simp [step]

/-- C6 counterexample: on the non-array input `3`, `Flatten` panics — the
result is not a `StepError` (`Res.err`) as the claim states. -/
theorem c6_flatten_counterexample :
    step TranslateContext.noop .Flatten (.num 3) [] =
      (.panic "Child was not an array!", []) ∧
    ∀ e st, step TranslateContext.noop .Flatten (.num 3) [] ≠ (.err e, st) := by
  constructor
  · simp [step]
  · intro e st h
    simp [step] at h

/-- Witness for C6 (amended) on the array-of-arrays input `[[1],[2]]`. -/
theorem c6_flatten_amended_witness :
    ((.arr [.arr [.num 1], .arr [.num 2]] : JsonValue) =
      .arr ([[JsonValue.num 1], [JsonValue.num 2]].map .arr)) ∧
    step TranslateContext.noop .Flatten (.arr [.arr [.num 1], .arr [.num 2]])
      [] = (.ok (.arr [.num 1, .num 2]), []) := by
  refine ⟨rfl, ?_⟩
  have h := (c6_flatten_amended TranslateContext.noop []
      (.arr [.arr [.num 1], .arr [.num 2]])).1
    [[JsonValue.num 1], [JsonValue.num 2]] rfl
  simpa using h

/-- C8: the parser maps the pipe syntax to `Map` and the `map(...)` syntax
to `Array`, consuming the whole input. -/
theorem c8_parser_pipe_and_map :
    parse_language ".foo | .bar" = some ("", .Map (.At "foo") (.At "bar")) ∧
    parse_language "map(.foo)" = some ("", .Array (.At "foo")) :=
  ⟨rfl, rfl⟩

/-- C9: evaluating `Splat(subs)` with non-empty `subs` whose sequential
evaluation succeeds returns the last sub-expression's value, but
`Splat([])` panics (`last().unwrap()` on an empty result vector) instead of
returning a value or a `StepError`. -/
theorem c9_splat_total_iff_nonempty :
    (∀ (ctx : TranslateContext) (v : JsonValue) (st : Store),
      step ctx (.Splat []) v st =
        (.panic "called Option::unwrap() on a None value", st)) ∧
    (∀ (ctx : TranslateContext) (each : List Language) (v : JsonValue)
      (st : Store) (vs : List JsonValue) (st' : Store),
      each ≠ [] → stepSplat ctx each v st = (.ok vs, st') →
      ∃ last, vs.getLast? = some last ∧
        step ctx (.Splat each) v st = (.ok last, st')) := by
  constructor
  · intro ctx v st
    simp [step, stepSplat]
  · intro ctx each v st vs st' hne hrun
    have hlen := stepSplat_length ctx each v st vs st' hrun
    have hvs : vs ≠ [] := by
      intro hnil
      apply hne
      cases each with
      | nil => rfl
      | cons a t => subst hnil; simp at hlen
    obtain ⟨last, hlast⟩ :=
      Option.isSome_iff_exists.mp (List.getLast?_isSome.mpr hvs)
    exact ⟨last, hlast, by simp [step, hrun, hlast]⟩

/-- Witness for C9's non-empty case with `Splat([Identity])` on `null`. -/
theorem c9_splat_witness :
    ([Language.Identity] ≠ []) ∧
    stepSplat TranslateContext.noop [.Identity] .null [] =
      (.ok [.null], []) ∧
    step TranslateContext.noop (.Splat [.Identity]) .null [] =
      (.ok .null, []) := by
  refine ⟨by simp, by simp [stepSplat, step], ?_⟩
  obtain ⟨last, hlast, hstep⟩ :=
    c9_splat_total_iff_nonempty.2 TranslateContext.noop [.Identity] .null []
      [.null] [] (by simp) (by simp [stepSplat, step])
  simp only [List.getLast?_singleton, Option.some.injEq] at hlast
  rw [← hlast] at hstep
  exact hstep

/-! ## Authorization lemmas and claims -/

/-- `splitLast` finds nothing when the character is absent. -/
theorem splitLast_eq_none (l : List Char) (c : Char) (h : c ∉ l) :
    splitLast l c = none := by
  induction l with
  | nil => rfl
  | cons x xs ih =>
    simp only [splitLast]
    rw [ih (fun hm => h (List.mem_cons_of_mem _ hm))]
    simp only [if_neg (fun hx : x = c => h (by simp [hx]))]

/-- `splitLast` splits at the last occurrence. -/
theorem splitLast_append (pre suf : List Char) (c : Char) (hsuf : c ∉ suf) :
    splitLast (pre ++ c :: suf) c = some (pre, suf) := by
  induction pre with
  | nil =>
    simp only [List.nil_append, splitLast]
    rw [splitLast_eq_none suf c hsuf]
    simp
  | cons x xs ih =>
    simp only [List.cons_append, splitLast, List.append_eq, ih]

/-- `splitFirst` splits at the first occurrence. -/
theorem splitFirst_append (pre suf : List Char) (c : Char) (hpre : c ∉ pre) :
    splitFirst (pre ++ c :: suf) c = some (pre, suf) := by
  induction pre with
  | nil => simp [splitFirst]
  | cons x xs ih =>
    simp only [List.cons_append, splitFirst, List.append_eq]
    rw [if_neg (fun hx : x = c => hpre (by simp [hx]))]
    rw [ih (fun hm => hpre (List.mem_cons_of_mem _ hm))]
    rfl

/-- `splitFirst` success recovers the decomposition of its input. -/
theorem splitFirst_eq_some (l : List Char) (c : Char) :
    ∀ p s, splitFirst l c = some (p, s) → l = p ++ c :: s := by
  induction l with
  | nil =>
    intro p s h
    simp [splitFirst] at h
  | cons x xs ih =>
    intro p s h
    by_cases hx : x = c
    · rw [splitFirst, if_pos hx] at h
      cases h
      simp [hx]
    · rw [splitFirst, if_neg hx] at h
      rw [Option.map_eq_some'] at h
      obtain ⟨⟨p', s'⟩, hsp, heq⟩ := h
      cases heq
      simp [ih p' s' hsp]

/-- C7 counterexample: a well-formed `Bearer` header carrying the direct
signed form `ownerId ++ "." ++ signature` (no `"s:"` sentinel, signature
computed by the MAC from the secret and the owner id) is extracted as
`Empty`, not as `Bearer` with that owner id as the claim states. -/
theorem c7_direct_form_counterexample :
    (("alice.kalice").data =
      ("alice").data ++ '.' ::
        ((fun s m : List Char => s ++ m) (("k").data) (("alice").data))) ∧
    from_request (fun s m => s ++ m) (some (("k").data))
        (some (("Bearer alice.kalice").data)) = .Empty := by
  exact ⟨rfl, rfl⟩

/-- C7 (amended): only tokens carrying the legacy `"s:"` sentinel are
verified.  A header `Bearer s:ownerId.signature` whose signature (dot-free,
as Base64-no-pad output is) matches the MAC of the owner id under the secret
yields `Bearer` with that owner id and the full sentinel-carrying token as
`raw_value`; a sentinel token whose signature does not match, a `Bearer`
token without the `"s:"` sentinel — in particular the direct signed form —,
any header that is not `Bearer` followed by a token, and a missing header
all yield `Empty`. -/
theorem c7_auth_amended (mac : List Char → List Char → List Char)
    (sec : List Char) (owner sig : List Char)
    (hsig : ('.' : Char) ∉ sig) :
    (mac sec owner = sig →
      from_request mac (some sec)
        (some (("Bearer").data ++ ' ' ::
          (("s:").data ++ (owner ++ '.' :: sig)))) =
      .Bearer ⟨owner, ("s:").data ++ (owner ++ '.' :: sig)⟩) ∧
    (mac sec owner ≠ sig →
      from_request mac (some sec)
        (some (("Bearer").data ++ ' ' ::
          (("s:").data ++ (owner ++ '.' :: sig)))) = .Empty) ∧
    (∀ token : List Char, ¬ (("s:").data).isPrefixOf token →
      from_request mac (some sec)
        (some (("Bearer").data ++ ' ' :: token)) = .Empty) ∧
    (∀ value : List Char,
      (∀ token : List Char, value ≠ ("Bearer").data ++ ' ' :: token) →
      from_request mac (some sec) (some value) = .Empty) ∧
    from_request mac (some sec) none = .Empty := by
  have hsp := splitFirst_append (("Bearer").data)
    (("s:").data ++ (owner ++ '.' :: sig)) ' ' (by decide)
  have hverite : hmac_verify mac (some sec)
      (List.drop 2 ((("s:").data ++ (owner ++ '.' :: sig)))) =
      if mac sec owner = sig then some owner else none := by
    have hdrop : List.drop 2 ((("s:").data ++ (owner ++ '.' :: sig))) =
        owner ++ '.' :: sig := rfl
    rw [hdrop]
    unfold hmac_verify
    rw [splitLast_append owner sig '.' hsig]
  have hpref : (("s:").data).isPrefixOf
      (("s:").data ++ (owner ++ '.' :: sig)) = true := by
    simp
  refine ⟨?_, ?_, ?_, ?_, rfl⟩
  · intro hmac
    unfold from_request
    simp only [hsp, hpref, if_pos rfl, if_true, hverite, if_pos hmac]
  · intro hne
    unfold from_request
    simp only [hsp, hpref, if_pos rfl, if_true, hverite, if_neg hne]
  · intro token htok
    have hsp2 := splitFirst_append (("Bearer").data) token ' ' (by decide)
    unfold from_request
    simp only [hsp2, if_pos rfl]
    simp only [List.isPrefixOf_iff_prefix] at htok
    simp
    intro hp
    exact absurd hp htok
  · intro value hnb
    unfold from_request
    cases hsp2 : splitFirst value ' ' with
    | none => simp only [hsp2]
    | some r =>
      obtain ⟨w, token⟩ := r
      by_cases hw : w = ("Bearer").data
      · exfalso
        subst hw
        exact hnb token (splitFirst_eq_some value ' ' _ _ hsp2)
      · simp only [hsp2]
        rw [if_neg hw]

/-- Witness for C7 (amended): concrete MAC, secret and owner. -/
theorem c7_auth_amended_witness :
    (('.' : Char) ∉ ("kalice").data) ∧
    ((fun s m : List Char => s ++ m) (("k").data) (("alice").data) =
      ("kalice").data) ∧
    from_request (fun s m => s ++ m) (some (("k").data))
        (some (("Bearer").data ++ ' ' ::
          (("s:").data ++ (("alice").data ++ '.' :: ("kalice").data)))) =
      .Bearer ⟨("alice").data,
        ("s:").data ++ (("alice").data ++ '.' :: ("kalice").data)⟩ :=
  ⟨by decide, rfl,
    (c7_auth_amended (fun s m => s ++ m) (("k").data) (("alice").data)
      (("kalice").data) (by decide)).1 rfl⟩

/-! ## Evaluator claims -/

/-- Every error produced by one loop iteration is an `InvalidStructure`, an
`UnknownService`, an `UnknownMethod`, or an error returned by the invoker;
in particular the loop body itself never produces `NoStepsSpecified`. -/
theorem processStep_err_imp (ctx : TranslateContext) (H : List Nat → Nat)
    (inv : JsonClient) (services : Services) (now : Nat)
    (s : JsonCryptogramStep) (rs : RunState) (e : EvaluateError)
    (rs' : RunState)
    (h : processStep ctx H inv services now s rs = (.err e, rs')) :
    (∃ se, e = .InvalidStructure se) ∨ (∃ n, e = .UnknownService n) ∨
    (∃ a b, e = .UnknownMethod a b) ∨
    (∃ m u b hd, inv m u b hd = .error e) := by
  unfold processStep at h
  dsimp only at h
  iterate 12 (all_goals try split at h)
  all_goals first
    | (cases h; exact Or.inl ⟨_, rfl⟩)
    | (cases h; exact Or.inr (Or.inl ⟨_, rfl⟩))
    | (cases h; exact Or.inr (Or.inr (Or.inl ⟨_, _, rfl⟩)))
    | (cases h; exact Or.inr (Or.inr (Or.inr ⟨_, _, _, _, by assumption⟩)))
    | cases h

/-- C1: for a step whose memoization prefix is set, when the cache holds an
unexpired entry under the key `prefix ++ hash_value(outgoing payload)` (the
payload after preflight), the step body `processStep` — the body of
`do_evaluate`'s loop — returns the cached value as the step's new payload
and leaves the call trace unchanged: `issue_request` is not called for that
step (and the cache is not written). -/
theorem c1_memo_hit (ctx : TranslateContext) (H : List Nat → Nat)
    (inv : JsonClient) (services : Services) (now : Nat)
    (s : JsonCryptogramStep) (rs : RunState) (pfx : String)
    (outgoing : JsonValue) (st : Store) (v : JsonValue)
    (hpfx : s.memoizationPrefix = some pfx)
    (hpre : applyFlight ctx s.preflight (s.payload.getD .null) rs.store =
      (.ok outgoing, st))
    (hhit : rs.cache.get now (pfx ++ hash_value H outgoing) = some v) :
    processStep ctx H inv services now s rs =
      (.ok v, { rs with store := st }) := by
  unfold processStep
  try dsimp only
  rw [hpre]
  simp only [hpfx, Option.map_some', hhit]

/-- Witness for C1: a cache hit under key `"u1-0"` short-circuits the step;
the invoker call trace stays empty. -/
theorem c1_memo_hit_witness :
    applyFlight TranslateContext.noop none
        ((some (JsonValue.num 1)).getD .null) [] = (.ok (.num 1), []) ∧
    MemoizationCache.get ⟨[("u1-0", (0, 600, JsonValue.str "cached"))]⟩ 0
        ("u1-" ++ hash_value (fun _ => 0) (.num 1)) =
      some (.str "cached") ∧
    processStep TranslateContext.noop (fun _ => 0) TestJsonClient [] 0
        ⟨some "svc", some "m", some (.num 1), none, none, some "u1-", none⟩
        ⟨⟨[("u1-0", (0, 600, .str "cached"))]⟩, [], []⟩ =
      (.ok (.str "cached"),
        ⟨⟨[("u1-0", (0, 600, .str "cached"))]⟩, [], []⟩) := by
  refine ⟨rfl, by rfl, ?_⟩
  exact c1_memo_hit TranslateContext.noop (fun _ => 0) TestJsonClient [] 0
    ⟨some "svc", some "m", some (.num 1), none, none, some "u1-", none⟩
    ⟨⟨[("u1-0", (0, 600, .str "cached"))]⟩, [], []⟩ "u1-" (.num 1) []
    (.str "cached") rfl rfl (by rfl)

end Delegator


namespace Delegator

theorem runSteps_result (ctx : TranslateContext) (H : List Nat → Nat)
    (inv : JsonClient) (services : Services) (now : Nat)
    (Hinv : ∀ m u b hd, inv m u b hd ≠ .error .NoStepsSpecified) :
    ∀ (steps : List JsonCryptogramStep) (rs : RunState), steps ≠ [] →
      (runSteps ctx H inv services now steps rs).1 ≠ .err .NoStepsSpecified ∧
      (∀ fin steps',
        (runSteps ctx H inv services now steps rs).1 = .ok (fin, steps') →
        fin.isSome)
  | [], _, hne => absurd rfl hne
  | s :: rest, rs, _ => by
    rcases hps : processStep ctx H inv services now s rs with ⟨r, rs₀⟩
    cases r with
    | ok new_payload =>
      cases rest with
      | nil =>
        rw [runSteps, hps]
        try dsimp only
        refine ⟨by simp, ?_⟩
        intro fin steps' heq
        try dsimp only at heq
        cases heq
        rfl
      | cons t ts =>
        have ih := runSteps_result ctx H inv services now Hinv
          ({ t with payload := some new_payload } :: ts) rs₀ (by simp)
        rcases hrec : runSteps ctx H inv services now
            ({ t with payload := some new_payload } :: ts) rs₀ with ⟨rr, rs₁⟩
        rw [hrec] at ih
        rw [runSteps, hps]
        try dsimp only
        rw [hrec]
        cases rr with
        | ok pr =>
          obtain ⟨fin, steps'⟩ := pr
          refine ⟨by simp, ?_⟩
          intro fin' steps'' heq
          try dsimp only at heq
          cases heq
          exact ih.2 fin steps' rfl
        | err e =>
          have h1 : e ≠ .NoStepsSpecified := by simpa using ih.1
          refine ⟨?_, ?_⟩
          · intro hcontra
            try dsimp only at hcontra
            cases hcontra
            exact h1 rfl
          · intro fin steps' heq
            try dsimp only at heq
            cases heq
        | panic m =>
          refine ⟨by simp, ?_⟩
          intro fin steps' heq
          try dsimp only at heq
          cases heq
    | err e =>
      have hshape := processStep_err_imp ctx H inv services now s rs e rs₀ hps
      rw [runSteps, hps]
      refine ⟨?_, ?_⟩
      · intro hcontra
        try dsimp only at hcontra
        cases hcontra
        rcases hshape with ⟨se, h⟩ | ⟨n, h⟩ | ⟨a, b, h⟩ | ⟨m, u, b, hd, hinv⟩
        · cases h
        · cases h
        · cases h
        · exact Hinv m u b hd hinv
      · intro fin steps' heq
        try dsimp only at heq
        cases heq
    | panic m =>
      rw [runSteps, hps]
      refine ⟨by simp, ?_⟩
      intro fin steps' heq
      try dsimp only at heq
      cases heq
termination_by steps _ _ => steps.length

end Delegator

namespace Delegator

theorem runSteps_cons_shape (ctx : TranslateContext) (H : List Nat → Nat)
    (inv : JsonClient) (services : Services) (now : Nat)
    (s : JsonCryptogramStep) (rest : List JsonCryptogramStep) (rs : RunState)
    (fin : Option JsonValue) (steps' : List JsonCryptogramStep)
    (rs' : RunState)
    (h : runSteps ctx H inv services now (s :: rest) rs =
      (.ok (fin, steps'), rs')) :
    ∃ tail, steps' = s :: tail := by
  rw [runSteps] at h
  rcases hps : processStep ctx H inv services now s rs with ⟨r, rs₀⟩
  rw [hps] at h
  cases r with
  | ok new_payload =>
    cases rest with
    | nil =>
      try dsimp only at h
      cases h
      exact ⟨[], rfl⟩
    | cons t ts =>
      try dsimp only at h
      rcases hrec : runSteps ctx H inv services now
          ({ t with payload := some new_payload } :: ts) rs₀ with ⟨rr, rs₁⟩
      rw [hrec] at h
      cases rr with
      | ok pr =>
        obtain ⟨fin₂, steps₂⟩ := pr
        try dsimp only at h
        cases h
        exact ⟨steps₂, rfl⟩
      | err e => try dsimp only at h; cases h
      | panic m => try dsimp only at h; cases h
  | err e => try dsimp only at h; cases h
  | panic m => try dsimp only at h; cases h

theorem runSteps_last (ctx : TranslateContext) (H : List Nat → Nat)
    (inv : JsonClient) (services : Services) (now : Nat) :
    ∀ (steps : List JsonCryptogramStep) (rs : RunState) (v : JsonValue)
      (steps' : List JsonCryptogramStep) (rs' : RunState),
      runSteps ctx H inv services now steps rs = (.ok (some v, steps'), rs') →
      ∃ last rsa rsb, steps'.getLast? = some last ∧
        processStep ctx H inv services now last rsa = (.ok v, rsb)
  | [], rs, v, steps', rs', h => by
    rw [runSteps] at h
    cases h
  | s :: rest, rs, v, steps', rs', h => by
    rw [runSteps] at h
    rcases hps : processStep ctx H inv services now s rs with ⟨r, rs₀⟩
    rw [hps] at h
    cases r with
    | ok new_payload =>
      cases rest with
      | nil =>
        try dsimp only at h
        cases h
        exact ⟨s, rs, _, rfl, hps⟩
      | cons t ts =>
        try dsimp only at h
        rcases hrec : runSteps ctx H inv services now
            ({ t with payload := some new_payload } :: ts) rs₀ with ⟨rr, rs₁⟩
        rw [hrec] at h
        cases rr with
        | ok pr =>
          obtain ⟨fin₂, steps₂⟩ := pr
          try dsimp only at h
          cases h
          obtain ⟨last, rsa, rsb, hlast, hproc⟩ :=
            runSteps_last ctx H inv services now _ _ _ _ _ hrec
          obtain ⟨tail, rfl⟩ := runSteps_cons_shape ctx H inv services now
            _ _ _ _ _ _ hrec
          refine ⟨last, rsa, rsb, ?_, hproc⟩
          rw [List.getLast?_cons_cons]
          exact hlast
        | err e => try dsimp only at h; cases h
        | panic m => try dsimp only at h; cases h
    | err e => try dsimp only at h; cases h
    | panic m => try dsimp only at h; cases h
termination_by steps _ _ _ _ _ => steps.length

theorem runSteps_frame (ctx : TranslateContext) (H : List Nat → Nat)
    (inv : JsonClient) (services : Services) (now : Nat) :
    ∀ (steps : List JsonCryptogramStep) (rs : RunState)
      (fin : Option JsonValue) (steps' : List JsonCryptogramStep)
      (rs' : RunState),
      runSteps ctx H inv services now steps rs = (.ok (fin, steps'), rs') →
      steps'.map stepFrame = steps.map stepFrame ∧
      steps'.head? = steps.head? ∧
      (∀ i s', 1 ≤ i → steps'[i]? = some s' → s'.payload.isSome) ∧
      (∀ i si sj, steps'[i]? = some si → steps'[i + 1]? = some sj →
        ∃ w rsa rsb, sj.payload = some w ∧
          processStep ctx H inv services now si rsa = (.ok w, rsb))
  | [], rs, fin, steps', rs', h => by
    rw [runSteps] at h
    cases h
    refine ⟨rfl, rfl, ?_, ?_⟩
    · intro i s' _ hsi
      simp at hsi
    · intro i si sj hsi _
      simp at hsi
  | s :: rest, rs, fin, steps', rs', h => by
    rw [runSteps] at h
    rcases hps : processStep ctx H inv services now s rs with ⟨r, rs₀⟩
    rw [hps] at h
    cases r with
    | ok new_payload =>
      cases rest with
      | nil =>
        try dsimp only at h
        cases h
        refine ⟨rfl, rfl, ?_, ?_⟩
        · intro i s' hi hsi
          cases i with
          | zero => omega
          | succ j => simp at hsi
        · intro i si sj hsi hsj
          cases i with
          | zero => simp at hsj
          | succ j => simp at hsi
      | cons t ts =>
        try dsimp only at h
        rcases hrec : runSteps ctx H inv services now
            ({ t with payload := some new_payload } :: ts) rs₀ with ⟨rr, rs₁⟩
        rw [hrec] at h
        cases rr with
        | ok pr =>
          obtain ⟨fin₂, steps₂⟩ := pr
          try dsimp only at h
          cases h
          obtain ⟨ihmap, ihhead, ihpay, ihlink⟩ :=
            runSteps_frame ctx H inv services now _ _ _ _ _ hrec
          have hhd : steps₂[0]? =
              some { t with payload := some new_payload } := by
            rw [← List.head?_eq_getElem?, ihhead]
            rfl
          refine ⟨?_, rfl, ?_, ?_⟩
          · simp only [List.map_cons]
            rw [ihmap]
            simp only [List.map_cons]
            rfl
          · intro i s' hi hsi
            cases i with
            | zero => omega
            | succ j =>
              simp only [List.getElem?_cons_succ] at hsi
              cases j with
              | zero =>
                injection hsi.symm.trans hhd with h'
                rw [h']
                rfl
              | succ k =>
                exact ihpay (k + 1) s' (by omega) hsi
          · intro i si sj hsi hsj
            cases i with
            | zero =>
              simp only [List.getElem?_cons_zero, Option.some.injEq] at hsi
              simp only [List.getElem?_cons_succ] at hsj
              injection hsj.symm.trans hhd with h'
              refine ⟨new_payload, rs, rs₀, ?_, ?_⟩
              · rw [h']
              · rw [← hsi]
                exact hps
            | succ j =>
              simp only [List.getElem?_cons_succ] at hsi hsj
              exact ihlink j si sj hsi hsj
        | err e => try dsimp only at h; cases h
        | panic m => try dsimp only at h; cases h
    | err e => try dsimp only at h; cases h
    | panic m => try dsimp only at h; cases h
termination_by steps _ _ _ _ _ => steps.length

end Delegator

namespace Delegator

theorem c4_no_steps_iff (ctx : TranslateContext) (H : List Nat → Nat)
    (inv : JsonClient) (services : Services) (now : Nat)
    (cryptogram : JsonCryptogram) (rs : RunState)
    (Hinv : ∀ m u b hd, inv m u b hd ≠ .error .NoStepsSpecified) :
    ((do_evaluate ctx H inv services now cryptogram rs).1 =
        .err .NoStepsSpecified ↔ cryptogram.steps = []) ∧
    (∀ v cg' rs', do_evaluate ctx H inv services now cryptogram rs =
        (.ok (v, cg'), rs') →
      ∃ last rsa rsb, cg'.steps.getLast? = some last ∧
        processStep ctx H inv services now last rsa = (.ok v, rsb)) := by
  constructor
  · constructor
    · intro herr
      by_contra hne
      rcases hrun : runSteps ctx H inv services now cryptogram.steps rs
        with ⟨rr, rs₁⟩
      have hres := runSteps_result ctx H inv services now Hinv
        cryptogram.steps rs hne
      rw [hrun] at hres
      unfold do_evaluate at herr
      rw [hrun] at herr
      cases rr with
      | ok pr =>
        obtain ⟨fin, steps'⟩ := pr
        have hsome := hres.2 fin steps' rfl
        cases fin with
        | some v =>
          try dsimp only at herr
          cases herr
        | none => simp at hsome
      | err e =>
        try dsimp only at herr
        exact hres.1 (by simpa using herr)
      | panic m =>
        try dsimp only at herr
        cases herr
    · intro hempty
      unfold do_evaluate
      rw [hempty, runSteps]
  · intro v cg' rs' hok
    unfold do_evaluate at hok
    rcases hrun : runSteps ctx H inv services now cryptogram.steps rs
      with ⟨rr, rs₁⟩
    rw [hrun] at hok
    cases rr with
    | ok pr =>
      obtain ⟨fin, steps'⟩ := pr
      cases fin with
      | some w =>
        try dsimp only at hok
        cases hok
        exact runSteps_last ctx H inv services now _ _ _ _ _ hrun
      | none =>
        try dsimp only at hok
        cases hok
    | err e =>
      try dsimp only at hok
      cases hok
    | panic m =>
      try dsimp only at hok
      cases hok

theorem c10_frame (ctx : TranslateContext) (H : List Nat → Nat)
    (inv : JsonClient) (services : Services) (now : Nat)
    (cryptogram : JsonCryptogram) (rs : RunState) (v : JsonValue)
    (cg' : JsonCryptogram) (rs' : RunState)
    (h : do_evaluate ctx H inv services now cryptogram rs =
      (.ok (v, cg'), rs')) :
    cg'.steps.map stepFrame = cryptogram.steps.map stepFrame ∧
    cg'.steps.head? = cryptogram.steps.head? ∧
    (∀ i s', 1 ≤ i → cg'.steps[i]? = some s' → s'.payload.isSome) ∧
    (∀ i si sj, cg'.steps[i]? = some si → cg'.steps[i + 1]? = some sj →
      ∃ w rsa rsb, sj.payload = some w ∧
        processStep ctx H inv services now si rsa = (.ok w, rsb)) := by
  unfold do_evaluate at h
  rcases hrun : runSteps ctx H inv services now cryptogram.steps rs
    with ⟨rr, rs₁⟩
  rw [hrun] at h
  cases rr with
  | ok pr =>
    obtain ⟨fin, steps'⟩ := pr
    cases fin with
    | some w =>
      try dsimp only at h
      cases h
      exact runSteps_frame ctx H inv services now _ _ _ _ _ hrun
    | none =>
      try dsimp only at h
      cases h
  | err e =>
    try dsimp only at h
    cases h
  | panic m =>
    try dsimp only at h
    cases h

end Delegator

namespace Delegator

theorem c4_no_steps_iff_witness :
    (∀ m u b hd, TestJsonClient m u b hd ≠ .error .NoStepsSpecified) ∧
    ((do_evaluate TranslateContext.noop (fun _ => 0) TestJsonClient [] 0
        ⟨[]⟩ ⟨MemoizationCache.empty, [], []⟩).1 = .err .NoStepsSpecified ↔
      (JsonCryptogram.mk []).steps = []) :=
  ⟨fun _ _ _ _ h => Except.noConfusion h,
    (c4_no_steps_iff TranslateContext.noop (fun _ => 0) TestJsonClient [] 0
      ⟨[]⟩ ⟨MemoizationCache.empty, [], []⟩
      (fun _ _ _ _ h => Except.noConfusion h)).1⟩

theorem c10_frame_witness :
    do_evaluate TranslateContext.noop (fun _ => 0) TestJsonClient [] 0
        ⟨[⟨none, none, some (.num 1), none, none, none, none⟩,
          ⟨none, none, none, none, none, none, none⟩]⟩
        ⟨MemoizationCache.empty, [], []⟩ =
      (.ok (.num 1,
          ⟨[⟨none, none, some (.num 1), none, none, none, none⟩,
            ⟨none, none, some (.num 1), none, none, none, none⟩]⟩),
        ⟨MemoizationCache.empty, [], []⟩) ∧
    ([(⟨none, none, some (.num 1), none, none, none, none⟩ : JsonCryptogramStep),
      ⟨none, none, some (.num 1), none, none, none, none⟩].map stepFrame =
      [(⟨none, none, some (.num 1), none, none, none, none⟩ : JsonCryptogramStep),
       ⟨none, none, none, none, none, none, none⟩].map stepFrame) := by
  have heval : do_evaluate TranslateContext.noop (fun _ => 0) TestJsonClient [] 0
      ⟨[⟨none, none, some (.num 1), none, none, none, none⟩,
        ⟨none, none, none, none, none, none, none⟩]⟩
      ⟨MemoizationCache.empty, [], []⟩ =
      (.ok (.num 1,
          ⟨[⟨none, none, some (.num 1), none, none, none, none⟩,
            ⟨none, none, some (.num 1), none, none, none, none⟩]⟩),
        ⟨MemoizationCache.empty, [], []⟩) := by
    simp [do_evaluate, runSteps, processStep, applyFlight]
  exact ⟨heval, (c10_frame TranslateContext.noop (fun _ => 0) TestJsonClient []
    0 _ _ _ _ _ heval).1⟩

end Delegator
